import Mathlib

/-!
Verification of a polynomial least-squares fitter built on LUP decomposition
(source: PolyFit.cpp).  The C++ code works on `double`; the embedding models
the reals by `ℚ`, matrices by functions `Nat → Nat → ℚ` mutated through
explicit update combinators, and the in-place loops by folds over the same
index ranges the source iterates over.  A fallible routine returns `Option`.
-/

attribute [local semireducible] Rat.add Rat.mul Rat.sub Rat.inv

/-- Pointwise update of a vector, modelling `v[i] = a`. -/
def updFn {α : Type} (v : Nat → α) (i : Nat) (a : α) : Nat → α :=
  fun j => if j = i then a else v j

/-- Pointwise update of a matrix, modelling `A[r][c] = a`. -/
def updEntry (A : Nat → Nat → ℚ) (r c : Nat) (a : ℚ) : Nat → Nat → ℚ :=
  fun i j => if i = r then (if j = c then a else A i j) else A i j

/-- Row exchange, modelling `A[r].swap(A[s])`. -/
def swapRows (A : Nat → Nat → ℚ) (r s : Nat) : Nat → Nat → ℚ :=
  fun i j => if i = r then A s j else if i = s then A r j else A i j

/-- The state mutated by `LUPDecompose`: the matrix `A` and the permutation
vector `P` (entries `0..N-1` are the permutation, entry `N` the swap counter). -/
structure LUPState where
  A : Nat → Nat → ℚ
  P : Nat → Nat

/-- One iteration of the pivot scan: `if ((absA = fabs(A[k][i])) > maxA) { maxA = absA; imax = k; }`. -/
def pivotStep (A : Nat → Nat → ℚ) (i : Nat) (q : ℚ × Nat) (k : Nat) : ℚ × Nat :=
  if |A k i| > q.1 then (|A k i|, k) else q

/-- The pivot scan of `LUPDecompose`: starting from `maxA = 0, imax = i`,
scan rows `k = i..N-1` of column `i`. -/
def pivotSearch (A : Nat → Nat → ℚ) (i N : Nat) : ℚ × Nat :=
  (List.range' i (N - i)).foldl (pivotStep A i) (0, i)

/-- The inner elimination of row `j` in `LUPDecompose`:
`A[j][i] /= A[i][i]; for (k = i+1; k < N; k++) A[j][k] -= A[j][i] * A[i][k];`. -/
def innerElim (i N j : Nat) (A : Nat → Nat → ℚ) : Nat → Nat → ℚ :=
  (List.range' (i + 1) (N - (i + 1))).foldl
    (fun B k => updEntry B j k (B j k - B j i * B i k))
    (updEntry A j i (A j i / A i i))

/-- The elimination loop of `LUPDecompose` for pivot column `i`, over rows
`j = i+1..N-1`. -/
def elimCol (i N : Nat) (A : Nat → Nat → ℚ) : Nat → Nat → ℚ :=
  (List.range' (i + 1) (N - (i + 1))).foldl (fun B j => innerElim i N j B) A

/-- The permutation update on a row exchange:
`j = P[i]; P[i] = P[imax]; P[imax] = j;` followed by `P[N]++`. -/
def swapP (P : Nat → Nat) (i imax N : Nat) : Nat → Nat :=
  let P1 := updFn (updFn P i (P imax)) imax (P i)
  updFn P1 N (P1 N + 1)

/-- The swap phase of one `LUPDecompose` iteration: if `imax != i`, exchange
rows `i` and `imax` of the matrix and of the permutation and bump the counter. -/
def pivotApply (N i : Nat) (s : LUPState) : LUPState :=
  let p := pivotSearch s.A i N
  if p.2 ≠ i then { A := swapRows s.A i p.2, P := swapP s.P i p.2 N } else s

/-- One iteration of the main loop of `LUPDecompose` at pivot column `i`:
pivot scan, `if (maxA < Tol) return 0`, optional row swap, elimination. -/
def decompStep (N : Nat) (Tol : ℚ) (i : Nat) (s : LUPState) : Option LUPState :=
  if (pivotSearch s.A i N).1 < Tol then none
  else some { A := elimCol i N (pivotApply N i s).A, P := (pivotApply N i s).P }

/-- The main loop of `LUPDecompose`, iterations `i, i+1, ...` with `m`
iterations left (`m + i = N` at the call site, so the loop runs `i < N`). -/
def decompAux (N : Nat) (Tol : ℚ) : Nat → Nat → LUPState → Option LUPState
  | 0, _, s => some s
  | m + 1, i, s =>
    match decompStep N Tol i s with
    | none => none
    | some s1 => decompAux N Tol m (i + 1) s1

/-- The initialization loop `for (i = 0; i <= N; i++) P[i] = i;` applied to the
incoming vector `P0`. -/
def initP (N : Nat) (P0 : Nat → Nat) : Nat → Nat :=
  fun t => if t ≤ N then t else P0 t

/-- `LUPDecompose(A, N, Tol, P)`: `none` models `return 0` (degenerate matrix),
`some s` models `return 1` with final matrix `s.A` and permutation `s.P`. -/
def LUPDecompose (A : Nat → Nat → ℚ) (N : Nat) (Tol : ℚ) (P0 : Nat → Nat) : Option LUPState :=
  decompAux N Tol N 0 { A := A, P := initP N P0 }

/-- The fixed solve tolerance `const double tol = 1e-12;`. -/
def tol : ℚ := 1 / 1000000000000

/-- Forward substitution of `LUPSolve`:
`x[i] = b[P[i]]; for (k = 0; k < i; k++) x[i] -= A[i][k] * x[k];` for `i = 0..N-1`. -/
def forwardSub (A : Nat → Nat → ℚ) (P : Nat → Nat) (b : Nat → ℚ) (N : Nat)
    (x0 : Nat → ℚ) : Nat → ℚ :=
  (List.range N).foldl
    (fun x i => updFn x i ((List.range i).foldl (fun v k => v - A i k * x k) (b (P i))))
    x0

/-- Backward substitution of `LUPSolve`:
`for (k = i+1; k < N; k++) x[i] -= A[i][k] * x[k]; x[i] = x[i] / A[i][i];`
for `i = N-1` down to `0`. -/
def backSub (A : Nat → Nat → ℚ) (N : Nat) (x0 : Nat → ℚ) : Nat → ℚ :=
  (List.range N).reverse.foldl
    (fun x i =>
      updFn x i
        (((List.range' (i + 1) (N - (i + 1))).foldl (fun v k => v - A i k * x k) (x i)) / A i i))
    x0

/-- `LUPSolve(x, A, b, N)`: decomposes `A` with the fixed tolerance and a fresh
zero permutation vector; on failure returns error code 1 leaving `x` at its
entry contents `x0`, on success error code 0 with the substituted solution. -/
def LUPSolve (A : Nat → Nat → ℚ) (b : Nat → ℚ) (N : Nat) (x0 : Nat → ℚ) :
    Nat × (Nat → ℚ) :=
  match LUPDecompose A N tol (fun _ => 0) with
  | none => (1, x0)
  | some s => (0, backSub s.A N (forwardSub s.A s.P b N x0))

/-- The body of the accumulation loop of `polyFit` for one power index `j`:
`if (j < nCoef) XY[j] += inY[i] * accumulatedPower; xxSum[j] += accumulatedPower;
accumulatedPower *= inX[i];`.  State: `(XY, xxSum, accumulatedPower)`. -/
def sampleStep (nCoef : Nat) (xi yi : ℚ) (st : (Nat → ℚ) × (Nat → ℚ) × ℚ) (j : Nat) :
    (Nat → ℚ) × (Nat → ℚ) × ℚ :=
  ((if j < nCoef then updFn st.1 j (st.1 j + yi * st.2.2) else st.1),
   updFn st.2.1 j (st.2.1 j + st.2.2),
   st.2.2 * xi)

/-- The accumulation of one sample `(xi, yi)` in `polyFit`: the inner loop over
`j = 0..nPower-1` starting with `accumulatedPower = 1`. -/
def accumSample (nCoef nPower : Nat) (xi yi : ℚ) (st : (Nat → ℚ) × (Nat → ℚ)) :
    (Nat → ℚ) × (Nat → ℚ) :=
  let r := (List.range nPower).foldl (sampleStep nCoef xi yi) (st.1, st.2, 1)
  (r.1, r.2.1)

/-- The sample loop of `polyFit` over `i = 0..nX-1`, starting from the
zero-initialized `XY` and `xxSum`.  Result: `(XY, xxSum)`. -/
def accumAll (inX inY : List ℚ) (nCoef nPower : Nat) : (Nat → ℚ) × (Nat → ℚ) :=
  (List.range inX.length).foldl
    (fun st i => accumSample nCoef nPower (inX.getD i 0) (inY.getD i 0) st)
    ((fun _ => 0), (fun _ => 0))

/-- The assembly loop of `polyFit`:
`XX[i][j] = xxSum[i+j]; XX[j][i] = XX[i][j];` for `i, j` in `0..nCoef-1`,
starting from the zero-initialized `XX`. -/
def assembleXX (xxSum : Nat → ℚ) (nCoef : Nat) : Nat → Nat → ℚ :=
  (List.range nCoef).foldl
    (fun XX i =>
      (List.range nCoef).foldl
        (fun B j =>
          let B1 := updEntry B i j (xxSum (i + j))
          updEntry B1 j i (B1 i j))
        XX)
    (fun _ _ => 0)

/-- `polyFit(outPolCoef, inX, inY, inPolOrder)`: builds the normal equations and
calls `LUPSolve` on them; returns the error code and the coefficient vector
(`outPolCoef`, resized to `nCoef` zeros before the solve). -/
def polyFit (inX inY : List ℚ) (inPolOrder : Nat) : Nat × List ℚ :=
  let nCoef := inPolOrder + 1
  let nPower := nCoef + inPolOrder
  let acc := accumAll inX inY nCoef nPower
  let XX := assembleXX acc.2 nCoef
  let r := LUPSolve XX acc.1 nCoef (fun _ => 0)
  (r.1, (List.range nCoef).map r.2)

/-- A square matrix given by rows, as the C++ caller passes
`vector<vector<double>>`. -/
def matOfList (A : List (List ℚ)) : Nat → Nat → ℚ :=
  fun i j => (A.getD i []).getD j 0

/-- A vector given by a list. -/
def vecOfList (b : List ℚ) : Nat → ℚ := fun i => b.getD i 0

/-- `LUPSolve` on list-shaped inputs, reading the `N` solution entries back. -/
def LUPSolveList (A : List (List ℚ)) (b : List ℚ) (N : Nat) : Nat × List ℚ :=
  let r := LUPSolve (matOfList A) (vecOfList b) N (fun _ => 0)
  (r.1, (List.range N).map r.2)

/-! ### The main loop as a step relation -/

/-- The pivot check that aborts `LUPDecompose` at column `j`: every remaining
row of the column (hence its maximum absolute value) is below the tolerance. -/
def LowPivotAt (A : Nat → Nat → ℚ) (N j : Nat) (Tol : ℚ) : Prop :=
  ∀ k, j ≤ k → k < N → |A k j| < Tol

/-- Reachability between loop iterations of `LUPDecompose`: from column `i` in
state `s`, successful iterations lead to column `j` in state `t`. -/
inductive StepsTo (N : Nat) (Tol : ℚ) : Nat → LUPState → Nat → LUPState → Prop
  | refl (i : Nat) (s : LUPState) : StepsTo N Tol i s i s
  | step {i : Nat} {s s1 : LUPState} {j : Nat} {t : LUPState} :
      decompStep N Tol i s = some s1 → StepsTo N Tol (i + 1) s1 j t → StepsTo N Tol i s j t

/-- Ghost mirror of the main loop that counts the row exchanges the loop
performs (one per iteration whose pivot scan returns `imax != i`). -/
def countSwapsAux (N : Nat) (Tol : ℚ) : Nat → Nat → LUPState → Nat
  | 0, _, _ => 0
  | m + 1, i, s =>
    match decompStep N Tol i s with
    | none => 0
    | some s1 =>
      (if (pivotSearch s.A i N).2 ≠ i then 1 else 0) + countSwapsAux N Tol m (i + 1) s1

/-- The number of row exchanges performed by `LUPDecompose A N Tol P0`. -/
def countSwaps (A : Nat → Nat → ℚ) (N : Nat) (Tol : ℚ) (P0 : Nat → Nat) : Nat :=
  countSwapsAux N Tol N 0 { A := A, P := initP N P0 }

/-- The singularity invariant used for the degenerate-shape claims: from
column `i` on, the trailing block of `A` has a row of zeros, or two distinct
rows that agree on the trailing columns. -/
def BadAt (A : Nat → Nat → ℚ) (i N : Nat) : Prop :=
  (∃ r, i ≤ r ∧ r < N ∧ ∀ c, i ≤ c → c < N → A r c = 0) ∨
  (∃ r s, i ≤ r ∧ i ≤ s ∧ r < N ∧ s < N ∧ r ≠ s ∧ ∀ c, i ≤ c → c < N → A r c = A s c)

/-! ### Pointwise facts about the update combinators -/

theorem updFn_same {α : Type} (v : Nat → α) (i : Nat) (a : α) : updFn v i a i = a := by
  simp [updFn]

theorem updFn_ne {α : Type} (v : Nat → α) (i : Nat) (a : α) {j : Nat} (h : j ≠ i) :
    updFn v i a j = v j := by
  simp [updFn, h]

theorem updEntry_same (A : Nat → Nat → ℚ) (r c : Nat) (a : ℚ) : updEntry A r c a r c = a := by
  simp [updEntry]

theorem updEntry_ne (A : Nat → Nat → ℚ) (r c : Nat) (a : ℚ) {r' c' : Nat}
    (h : r' ≠ r ∨ c' ≠ c) : updEntry A r c a r' c' = A r' c' := by
  rcases h with h | h
  · simp [updEntry, h]
  · unfold updEntry
    split_ifs with h1 <;> simp [h]

theorem swapRows_eq_swap (A : Nat → Nat → ℚ) (r s r' c : Nat) :
    swapRows A r s r' c = A (Equiv.swap r s r') c := by
  simp only [swapRows, Equiv.swap_apply_def]
  split_ifs <;> rfl

/-! ### The pivot scan: running maximum with first-wins tie-break -/

theorem pivotFold_spec (A : Nat → Nat → ℚ) (i : Nat) :
    ∀ (m a : Nat) (q r : ℚ × Nat),
      i ≤ a →
      (q.1 = 0 ∧ q.2 = i ∨ q.1 = |A q.2 i| ∧ i ≤ q.2 ∧ q.2 < a) →
      (∀ k, i ≤ k → k < a → |A k i| ≤ q.1) →
      (∀ k, i ≤ k → k < q.2 → |A k i| < q.1) →
      0 ≤ q.1 →
      r = (List.range' a m).foldl (pivotStep A i) q →
      (r.1 = 0 ∧ r.2 = i ∨ r.1 = |A r.2 i| ∧ i ≤ r.2 ∧ r.2 < a + m) ∧
      (∀ k, i ≤ k → k < a + m → |A k i| ≤ r.1) ∧
      (∀ k, i ≤ k → k < r.2 → |A k i| < r.1) ∧
      0 ≤ r.1 := by
  intro m
  induction m with
  | zero =>
    intro a q r ha h1 h2 h3 h4 hr
    simp only [List.range', List.foldl_nil] at hr
    subst hr
    refine ⟨?_, fun k hk hk' => h2 k hk (by omega), h3, h4⟩
    rcases h1 with h | ⟨h, h', h''⟩
    · exact Or.inl h
    · exact Or.inr ⟨h, h', by omega⟩
  | succ m ih =>
    intro a q r ha h1 h2 h3 h4 hr
    rw [List.range'_succ, List.foldl_cons] at hr
    have hstep : pivotStep A i q a = if |A a i| > q.1 then (|A a i|, a) else q := rfl
    by_cases hgt : |A a i| > q.1
    · rw [hstep, if_pos hgt] at hr
      have hd : (|A a i| = 0 ∧ a = i) ∨ (|A a i| = |A a i| ∧ i ≤ a ∧ a < a + 1) :=
        Or.inr ⟨rfl, ha, by omega⟩
      have hb : ∀ k, i ≤ k → k < a + 1 → |A k i| ≤ |A a i| := by
        intro k hk hk'
        rcases Nat.lt_succ_iff_lt_or_eq.mp hk' with h | h
        · exact le_of_lt (lt_of_le_of_lt (h2 k hk h) hgt)
        · subst h; exact le_refl _
      have ht : ∀ k, i ≤ k → k < a → |A k i| < |A a i| := by
        intro k hk hk'
        exact lt_of_le_of_lt (h2 k hk hk') hgt
      have hres := ih (a + 1) (|A a i|, a) r (by omega) hd hb ht (abs_nonneg _) hr
      refine ⟨?_, ?_, hres.2.2.1, hres.2.2.2⟩
      · rcases hres.1 with h | ⟨h, h', h''⟩
        · exact Or.inl h
        · exact Or.inr ⟨h, h', by omega⟩
      · intro k hk hk'
        exact hres.2.1 k hk (by omega)
    · rw [hstep, if_neg hgt] at hr
      have hd : q.1 = 0 ∧ q.2 = i ∨ q.1 = |A q.2 i| ∧ i ≤ q.2 ∧ q.2 < a + 1 := by
        rcases h1 with ⟨h, h'⟩ | ⟨h, h', h''⟩
        · exact Or.inl ⟨h, h'⟩
        · exact Or.inr ⟨h, h', by omega⟩
      have hb : ∀ k, i ≤ k → k < a + 1 → |A k i| ≤ q.1 := by
        intro k hk hk'
        rcases Nat.lt_succ_iff_lt_or_eq.mp hk' with h | h
        · exact h2 k hk h
        · subst h; exact le_of_not_lt hgt
      have hres := ih (a + 1) q r (by omega) hd hb h3 h4 hr
      refine ⟨?_, ?_, hres.2.2.1, hres.2.2.2⟩
      · rcases hres.1 with h | ⟨h, h', h''⟩
        · exact Or.inl h
        · exact Or.inr ⟨h, h', by omega⟩
      · intro k hk hk'
        exact hres.2.1 k hk (by omega)

theorem pivot_le (A : Nat → Nat → ℚ) (i N : Nat) :
    ∀ k, i ≤ k → k < N → |A k i| ≤ (pivotSearch A i N).1 := by
  intro k hk hk'
  have h := pivotFold_spec A i (N - i) i (0, i) (pivotSearch A i N) le_rfl
    (Or.inl ⟨rfl, rfl⟩) (fun k hk hk' => by omega) (fun k hk hk' => by omega) le_rfl rfl
  exact h.2.1 k hk (by omega)

theorem pivot_nonneg (A : Nat → Nat → ℚ) (i N : Nat) : 0 ≤ (pivotSearch A i N).1 := by
  have h := pivotFold_spec A i (N - i) i (0, i) (pivotSearch A i N) le_rfl
    (Or.inl ⟨rfl, rfl⟩) (fun k hk hk' => by omega) (fun k hk hk' => by omega) le_rfl rfl
  exact h.2.2.2

theorem pivot_tiebreak (A : Nat → Nat → ℚ) (i N : Nat) :
    ∀ k, i ≤ k → k < (pivotSearch A i N).2 → |A k i| < (pivotSearch A i N).1 := by
  have h := pivotFold_spec A i (N - i) i (0, i) (pivotSearch A i N) le_rfl
    (Or.inl ⟨rfl, rfl⟩) (fun k hk hk' => by omega) (fun k hk hk' => by omega) le_rfl rfl
  exact h.2.2.1

theorem pivot_cases (A : Nat → Nat → ℚ) (i N : Nat) :
    (pivotSearch A i N).1 = 0 ∧ (pivotSearch A i N).2 = i ∨
      (pivotSearch A i N).1 = |A (pivotSearch A i N).2 i| ∧
        i ≤ (pivotSearch A i N).2 ∧ (pivotSearch A i N).2 < N := by
  have h := pivotFold_spec A i (N - i) i (0, i) (pivotSearch A i N) le_rfl
    (Or.inl ⟨rfl, rfl⟩) (fun k hk hk' => by omega) (fun k hk hk' => by omega) le_rfl rfl
  rcases h.1 with h' | ⟨h', h'', h'''⟩
  · exact Or.inl h'
  · refine Or.inr ⟨h', h'', ?_⟩
    omega

theorem pivot_attain (A : Nat → Nat → ℚ) (i N : Nat) (hiN : i < N) :
    |A (pivotSearch A i N).2 i| = (pivotSearch A i N).1 ∧
      i ≤ (pivotSearch A i N).2 ∧ (pivotSearch A i N).2 < N := by
  rcases pivot_cases A i N with ⟨h1, h2⟩ | ⟨h1, h2, h3⟩
  · have hle := pivot_le A i N i le_rfl hiN
    rw [h1] at hle
    have : |A i i| = 0 := le_antisymm hle (abs_nonneg _)
    rw [h2, this, h1]
    exact ⟨rfl, le_rfl, hiN⟩
  · exact ⟨h1.symm, h2, h3⟩

theorem pivot_imax_lt (A : Nat → Nat → ℚ) (i N : Nat) (h : (pivotSearch A i N).2 ≠ i) :
    i ≤ (pivotSearch A i N).2 ∧ (pivotSearch A i N).2 < N := by
  rcases pivot_cases A i N with ⟨_, h2⟩ | ⟨_, h2, h3⟩
  · exact absurd h2 h
  · exact ⟨h2, h3⟩

theorem pivot_zero_col (A : Nat → Nat → ℚ) (i N : Nat)
    (h : ∀ k, i ≤ k → k < N → A k i = 0) : pivotSearch A i N = (0, i) := by
  have key : ∀ m a, i ≤ a → (∀ k, a ≤ k → k < a + m → A k i = 0) →
      (List.range' a m).foldl (pivotStep A i) (0, i) = (0, i) := by
    intro m
    induction m with
    | zero => intro a _ _; rfl
    | succ m ih =>
      intro a ha hz
      rw [List.range'_succ, List.foldl_cons]
      have h0 : A a i = 0 := hz a le_rfl (by omega)
      have : pivotStep A i (0, i) a = (0, i) := by
        simp [pivotStep, h0]
      rw [this]
      exact ih (a + 1) (by omega) (fun k hk hk' => hz k (by omega) (by omega))
  unfold pivotSearch
  exact key (N - i) i le_rfl (fun k hk hk' => h k (by omega) (by omega))

theorem stepsTo_le {N : Nat} {Tol : ℚ} {i : Nat} {s : LUPState} {j : Nat} {t : LUPState}
    (h : StepsTo N Tol i s j t) : i ≤ j := by
  induction h with
  | refl i s => exact le_rfl
  | step h1 h2 ih => omega

theorem decompStep_none_iff (N : Nat) (Tol : ℚ) (i : Nat) (s : LUPState) :
    decompStep N Tol i s = none ↔ (pivotSearch s.A i N).1 < Tol := by
  unfold decompStep
  split_ifs with h <;> simp [h]

theorem decompAux_none_iff (N : Nat) (Tol : ℚ) :
    ∀ (m i : Nat) (s : LUPState), m + i = N →
      (decompAux N Tol m i s = none ↔
        ∃ j t, StepsTo N Tol i s j t ∧ j < N ∧ (pivotSearch t.A j N).1 < Tol) := by
  intro m
  induction m with
  | zero =>
    intro i s hm
    constructor
    · intro h
      simp [decompAux] at h
    · rintro ⟨j, t, hst, hj, _⟩
      have := stepsTo_le hst
      omega
  | succ m ih =>
    intro i s hm
    cases h : decompStep N Tol i s with
    | none =>
      have hL : decompAux N Tol (m + 1) i s = none := by
        simp [decompAux, h]
      refine iff_of_true hL ⟨i, s, StepsTo.refl i s, by omega, ?_⟩
      exact (decompStep_none_iff N Tol i s).mp h
    | some s1 =>
      have hL : decompAux N Tol (m + 1) i s = decompAux N Tol m (i + 1) s1 := by
        simp [decompAux, h]
      rw [hL, ih (i + 1) s1 (by omega)]
      constructor
      · rintro ⟨j, t, hst, hj, hp⟩
        exact ⟨j, t, StepsTo.step h hst, hj, hp⟩
      · rintro ⟨j, t, hst, hj, hp⟩
        cases hst with
        | refl =>
          have hnone : decompStep N Tol i s = none := (decompStep_none_iff N Tol i s).mpr hp
          rw [h] at hnone
          exact absurd hnone (by simp)
        | step h1 h2 =>
          rw [h] at h1
          cases h1
          exact ⟨j, t, h2, hj, hp⟩

theorem lowPivot_iff {A : Nat → Nat → ℚ} {N j : Nat} {Tol : ℚ} (hjN : j < N) :
    (pivotSearch A j N).1 < Tol ↔ LowPivotAt A N j Tol := by
  constructor
  · intro h k hk hk'
    exact lt_of_le_of_lt (pivot_le A j N k hk hk') h
  · intro h
    obtain ⟨ha, h1, h2⟩ := pivot_attain A j N hjN
    rw [← ha]
    exact h _ h1 h2

theorem LUPSolve_code_one_iff (A : Nat → Nat → ℚ) (b : Nat → ℚ) (N : Nat) (x0 : Nat → ℚ) :
    (LUPSolve A b N x0).1 = 1 ↔ LUPDecompose A N tol (fun _ => 0) = none := by
  unfold LUPSolve
  cases h : LUPDecompose A N tol (fun _ => 0) <;> simp

/-- C1: `LUPSolve` returns error code 1 exactly when the internal
`LUPDecompose`, run with the fixed tolerance `1e-12`, reaches some pivot
column whose maximum absolute value over the remaining rows is below that
tolerance, and returns 0 otherwise; and `polyFit` returns exactly the error
code of the `LUPSolve` call on the assembled normal equations. -/
theorem solve_error_code_spec :
    ∀ (A : Nat → Nat → ℚ) (b : Nat → ℚ) (N : Nat) (x0 : Nat → ℚ),
      ((LUPSolve A b N x0).1 = 1 ↔
        ∃ j t, StepsTo N tol 0 { A := A, P := initP N (fun _ => 0) } j t ∧ j < N ∧
          LowPivotAt t.A N j tol) ∧
      ((LUPSolve A b N x0).1 = 0 ↔
        ¬ ∃ j t, StepsTo N tol 0 { A := A, P := initP N (fun _ => 0) } j t ∧ j < N ∧
          LowPivotAt t.A N j tol) ∧
      ∀ (inX inY : List ℚ) (d : Nat),
        (polyFit inX inY d).1 =
          (LUPSolve (assembleXX (accumAll inX inY (d + 1) (d + 1 + d)).2 (d + 1))
            (accumAll inX inY (d + 1) (d + 1 + d)).1 (d + 1) (fun _ => 0)).1 := by
  intro A b N x0
  have hmain : (LUPSolve A b N x0).1 = 1 ↔
      ∃ j t, StepsTo N tol 0 { A := A, P := initP N (fun _ => 0) } j t ∧ j < N ∧
        LowPivotAt t.A N j tol := by
    rw [LUPSolve_code_one_iff]
    unfold LUPDecompose
    rw [decompAux_none_iff N tol N 0 _ (by omega)]
    constructor
    · rintro ⟨j, t, h1, h2, h3⟩
      exact ⟨j, t, h1, h2, (lowPivot_iff h2).mp h3⟩
    · rintro ⟨j, t, h1, h2, h3⟩
      exact ⟨j, t, h1, h2, (lowPivot_iff h2).mpr h3⟩
  have hdi : (LUPSolve A b N x0).1 = 0 ∨ (LUPSolve A b N x0).1 = 1 := by
    unfold LUPSolve
    cases h : LUPDecompose A N tol (fun _ => 0) <;> simp
  refine ⟨hmain, ?_, fun inX inY d => rfl⟩
  rw [← hmain]
  omega

/-- C3: on the concrete system `A = [[2,1],[1,3]]`, `b = [5,10]`, `N = 2`,
`LUPSolve` returns error code 0 and the solution `[1, 3]`. -/
theorem solve_concrete_2x2 : LUPSolveList [[2, 1], [1, 3]] [5, 10] 2 = (0, [1, 3]) := by
  decide

/-- C6: on `x = [1,1,1]`, `y = [1,2,3]`, `degree = 1`, `polyFit` returns error
code 1; indeed the two rows of the assembled normal matrix are identical. -/
theorem polyFit_duplicate_x_fails :
    (polyFit [1, 1, 1] [1, 2, 3] 1).1 = 1 ∧
      ∀ c, c < 2 →
        assembleXX (accumAll [1, 1, 1] [1, 2, 3] 2 3).2 2 0 c =
          assembleXX (accumAll [1, 1, 1] [1, 2, 3] 2 3).2 2 1 c := by
  constructor
  · decide
  · decide

/-- C8: `polyFit` is deterministic — two calls on identical inputs return the
same error code and the same coefficient vector. -/
theorem polyFit_deterministic :
    ∀ (xs ys : List ℚ) (d : Nat) (r1 r2 : Nat × List ℚ),
      r1 = polyFit xs ys d → r2 = polyFit xs ys d → r1.1 = r2.1 ∧ r1.2 = r2.2 := by
  intro xs ys d r1 r2 h1 h2
  subst h1
  subst h2
  exact ⟨rfl, rfl⟩

theorem polyFit_deterministic_witness :
    (polyFit [0, 1] [1, 3] 1).1 = (polyFit [0, 1] [1, 3] 1).1 ∧
      (polyFit [0, 1] [1, 3] 1).2 = (polyFit [0, 1] [1, 3] 1).2 :=
  polyFit_deterministic [0, 1] [1, 3] 1 (polyFit [0, 1] [1, 3] 1) (polyFit [0, 1] [1, 3] 1)
    rfl rfl

/-- C9: when the internal decomposition fails, `LUPSolve` returns error code 1
and the output vector `x` is exactly its contents at entry. -/
theorem solve_failure_atomic :
    ∀ (A : Nat → Nat → ℚ) (b : Nat → ℚ) (N : Nat) (x0 : Nat → ℚ),
      LUPDecompose A N tol (fun _ => 0) = none → LUPSolve A b N x0 = (1, x0) := by
  intro A b N x0 h
  simp only [LUPSolve, h]

theorem solve_failure_atomic_witness :
    LUPDecompose (matOfList [[0, 0], [0, 0]]) 2 tol (fun _ => 0) = none ∧
      LUPSolve (matOfList [[0, 0], [0, 0]]) (vecOfList [5, 6]) 2 (vecOfList [7, 8]) =
        (1, vecOfList [7, 8]) := by
  have hn : LUPDecompose (matOfList [[0, 0], [0, 0]]) 2 tol (fun _ => 0) = none :=
    Option.isNone_iff_eq_none.mp (by decide)
  exact ⟨hn, solve_failure_atomic (matOfList [[0, 0], [0, 0]]) (vecOfList [5, 6]) 2
    (vecOfList [7, 8]) hn⟩

/-! ### The permutation's trailing swap counter -/

theorem swapP_N (P : Nat → Nat) (i imax N : Nat) (hi : i < N) (himax : imax < N) :
    swapP P i imax N N = P N + 1 := by
  simp only [swapP]
  rw [updFn_same]
  rw [updFn_ne _ _ _ (show N ≠ imax by omega), updFn_ne _ _ _ (show N ≠ i by omega)]

theorem decompStep_P_N {N : Nat} {Tol : ℚ} {i : Nat} {s s1 : LUPState} (hiN : i < N)
    (h : decompStep N Tol i s = some s1) :
    s1.P N = s.P N + (if (pivotSearch s.A i N).2 ≠ i then 1 else 0) := by
  unfold decompStep at h
  split_ifs at h with hp
  cases h
  simp only
  unfold pivotApply
  by_cases hsw : (pivotSearch s.A i N).2 ≠ i
  · obtain ⟨h1, h2⟩ := pivot_imax_lt s.A i N hsw
    rw [if_pos hsw, if_pos hsw]
    exact swapP_N s.P i (pivotSearch s.A i N).2 N hiN h2
  · simp [hsw]

theorem decompAux_P_N (N : Nat) (Tol : ℚ) :
    ∀ (m i : Nat) (s : LUPState) (t : LUPState), m + i = N →
      decompAux N Tol m i s = some t →
      t.P N = s.P N + countSwapsAux N Tol m i s := by
  intro m
  induction m with
  | zero =>
    intro i s t hm h
    simp only [decompAux, Option.some.injEq] at h
    subst h
    simp [countSwapsAux]
  | succ m ih =>
    intro i s t hm h
    cases hstep : decompStep N Tol i s with
    | none =>
      rw [decompAux, hstep] at h
      exact absurd h (by simp)
    | some s1 =>
      rw [decompAux, hstep] at h
      have h1 := ih (i + 1) s1 t (by omega) h
      have h2 := decompStep_P_N (show i < N by omega) hstep
      have h3 : countSwapsAux N Tol (m + 1) i s =
          (if (pivotSearch s.A i N).2 ≠ i then 1 else 0) + countSwapsAux N Tol m (i + 1) s1 := by
        rw [countSwapsAux, hstep]
      rw [h1, h2, h3]
      omega

/-- C4: `LUPDecompose` first initializes the permutation vector to the identity
(with trailing entry `N`), and on successful return the trailing entry exceeds
`N` by exactly the number of row exchanges performed (each exchange having
incremented it by one). -/
theorem perm_swap_counter :
    ∀ (A : Nat → Nat → ℚ) (N : Nat) (Tol : ℚ) (P0 : Nat → Nat),
      (∀ k, k ≤ N → initP N P0 k = k) ∧
      ((LUPDecompose A N Tol P0).isSome = true →
        (LUPDecompose A N Tol P0).map (fun t => t.P N) =
          some (N + countSwaps A N Tol P0)) := by
  intro A N Tol P0
  constructor
  · intro k hk
    simp [initP, hk]
  · intro hs
    obtain ⟨t, ht⟩ := Option.isSome_iff_exists.mp hs
    have h := decompAux_P_N N Tol N 0 { A := A, P := initP N P0 } t (by omega) ht
    rw [ht]
    simp only [Option.map_some']
    have hinit : initP N P0 N = N := by simp [initP]
    rw [h]
    simp only [hinit]
    rfl

theorem perm_swap_counter_witness :
    initP 2 (fun _ => 0) 2 = 2 ∧
      (LUPDecompose (matOfList [[0, 1], [1, 0]]) 2 1 (fun _ => 0)).map (fun t => t.P 2) =
        some (2 + countSwaps (matOfList [[0, 1], [1, 0]]) 2 1 (fun _ => 0)) :=
  ⟨(perm_swap_counter (matOfList [[0, 1], [1, 0]]) 2 1 (fun _ => 0)).1 2 (by decide),
   (perm_swap_counter (matOfList [[0, 1], [1, 0]]) 2 1 (fun _ => 0)).2 (by decide)⟩

/-- C7: the pivot scan of `LUPDecompose` selects the lowest row index in
`i..N-1` attaining the maximum absolute value of column `i` over that range —
the running-maximum comparison is a strict greater-than, so every row before
the selected one is strictly below the returned maximum. -/
theorem pivot_first_max :
    ∀ (A : Nat → Nat → ℚ) (i N : Nat), i < N →
      i ≤ (pivotSearch A i N).2 ∧ (pivotSearch A i N).2 < N ∧
      |A (pivotSearch A i N).2 i| = (pivotSearch A i N).1 ∧
      (∀ k, i ≤ k → k < N → |A k i| ≤ (pivotSearch A i N).1) ∧
      (∀ k, i ≤ k → k < (pivotSearch A i N).2 → |A k i| < (pivotSearch A i N).1) := by
  intro A i N hiN
  obtain ⟨h1, h2, h3⟩ := pivot_attain A i N hiN
  exact ⟨h2, h3, h1, pivot_le A i N, pivot_tiebreak A i N⟩

theorem pivot_first_max_witness :
    (0 : Nat) < 3 ∧
      (0 ≤ (pivotSearch (matOfList [[1, 9], [-1, 5], [1, 7]]) 0 3).2 ∧
        (pivotSearch (matOfList [[1, 9], [-1, 5], [1, 7]]) 0 3).2 < 3 ∧
        |matOfList [[1, 9], [-1, 5], [1, 7]]
            (pivotSearch (matOfList [[1, 9], [-1, 5], [1, 7]]) 0 3).2 0| =
          (pivotSearch (matOfList [[1, 9], [-1, 5], [1, 7]]) 0 3).1 ∧
        (∀ k, 0 ≤ k → k < 3 →
          |matOfList [[1, 9], [-1, 5], [1, 7]] k 0| ≤
            (pivotSearch (matOfList [[1, 9], [-1, 5], [1, 7]]) 0 3).1) ∧
        (∀ k, 0 ≤ k → k < (pivotSearch (matOfList [[1, 9], [-1, 5], [1, 7]]) 0 3).2 →
          |matOfList [[1, 9], [-1, 5], [1, 7]] k 0| <
            (pivotSearch (matOfList [[1, 9], [-1, 5], [1, 7]]) 0 3).1)) :=
  ⟨by decide, pivot_first_max (matOfList [[1, 9], [-1, 5], [1, 7]]) 0 3 (by decide)⟩

/-! ### Pointwise characterization of the elimination loops -/

theorem innerElim_fold_ne (j i : Nat) :
    ∀ (L : List Nat) (B : Nat → Nat → ℚ) (r c : Nat), r ≠ j →
      (L.foldl (fun B k => updEntry B j k (B j k - B j i * B i k)) B) r c = B r c := by
  intro L
  induction L with
  | nil => intro B r c h; rfl
  | cons a L ih =>
    intro B r c h
    rw [List.foldl_cons, ih _ r c h]
    exact updEntry_ne _ _ _ _ (Or.inl h)

theorem innerElim_ne (i N j : Nat) (A : Nat → Nat → ℚ) (r c : Nat) (h : r ≠ j) :
    innerElim i N j A r c = A r c := by
  unfold innerElim
  rw [innerElim_fold_ne j i _ _ r c h]
  exact updEntry_ne _ _ _ _ (Or.inl h)

theorem innerElim_fold_spec (j i : Nat) (hji : j ≠ i) :
    ∀ (m a : Nat) (B : Nat → Nat → ℚ), i < a →
      ∀ c, ((List.range' a m).foldl (fun B k => updEntry B j k (B j k - B j i * B i k)) B) j c =
        if a ≤ c ∧ c < a + m then B j c - B j i * B i c else B j c := by
  intro m
  induction m with
  | zero =>
    intro a B ha c
    rw [if_neg (by omega)]
    rfl
  | succ m ih =>
    intro a B ha c
    rw [List.range'_succ, List.foldl_cons]
    have hB1ji : updEntry B j a (B j a - B j i * B i a) j i = B j i :=
      updEntry_ne _ _ _ _ (Or.inr (by omega))
    have hB1ic : ∀ c', updEntry B j a (B j a - B j i * B i a) i c' = B i c' :=
      fun c' => updEntry_ne _ _ _ _ (Or.inl (Ne.symm hji))
    rw [ih (a + 1) _ (by omega) c]
    by_cases hc : c = a
    · subst hc
      rw [if_neg (by omega), if_pos (by omega)]
      exact updEntry_same _ _ _ _
    · have hB1jc : updEntry B j a (B j a - B j i * B i a) j c = B j c :=
        updEntry_ne _ _ _ _ (Or.inr hc)
      by_cases hin : a ≤ c ∧ c < a + (m + 1)
      · rw [if_pos (by omega), if_pos hin, hB1jc, hB1ji, hB1ic]
      · rw [if_neg (by omega), if_neg hin, hB1jc]

theorem innerElim_at (i N j : Nat) (A : Nat → Nat → ℚ) (c : Nat) (hji : j ≠ i)
    (hc1 : i + 1 ≤ c) (hc2 : c < N) :
    innerElim i N j A j c = A j c - A j i / A i i * A i c := by
  unfold innerElim
  rw [innerElim_fold_spec j i hji (N - (i + 1)) (i + 1) _ (by omega) c,
    if_pos (by omega)]
  rw [updEntry_ne _ _ _ _ (Or.inr (by omega : c ≠ i)),
    updEntry_same, updEntry_ne _ _ _ _ (Or.inl (Ne.symm hji))]

theorem elimCol_fold_ne (i N : Nat) :
    ∀ (L : List Nat) (B : Nat → Nat → ℚ) (r c : Nat), r ∉ L →
      (L.foldl (fun B j => innerElim i N j B) B) r c = B r c := by
  intro L
  induction L with
  | nil => intro B r c h; rfl
  | cons a L ih =>
    intro B r c h
    rw [List.foldl_cons, ih _ r c (fun hm => h (List.mem_cons_of_mem a hm))]
    exact innerElim_ne i N a B r c (fun he => h (he ▸ List.mem_cons_self a L))

theorem elimCol_fold_at (i N : Nat) :
    ∀ (L : List Nat) (B : Nat → Nat → ℚ) (r c : Nat),
      (∀ j ∈ L, i < j) → L.Nodup → r ∈ L → i + 1 ≤ c → c < N →
      (L.foldl (fun B j => innerElim i N j B) B) r c = B r c - B r i / B i i * B i c := by
  intro L
  induction L with
  | nil => intro B r c _ _ h; cases h
  | cons a L ih =>
    intro B r c hgt hnd hr hc1 hc2
    rw [List.foldl_cons]
    rcases List.mem_cons.mp hr with he | hm
    · subst he
      have hnotin : r ∉ L := (List.nodup_cons.mp hnd).1
      rw [elimCol_fold_ne i N L _ r c hnotin]
      exact innerElim_at i N r B c (by have := hgt r (List.mem_cons_self r L); omega) hc1 hc2
    · have hra : r ≠ a := by
        intro he
        exact (List.nodup_cons.mp hnd).1 (he ▸ hm)
      have hia : i ≠ a := by
        have := hgt a (List.mem_cons_self a L)
        omega
      have h1 : ∀ c', innerElim i N a B r c' = B r c' :=
        fun c' => innerElim_ne i N a B r c' hra
      have h2 : ∀ c', innerElim i N a B i c' = B i c' :=
        fun c' => innerElim_ne i N a B i c' hia
      rw [ih _ r c (fun j hj => hgt j (List.mem_cons_of_mem a hj)) (List.nodup_cons.mp hnd).2
        hm hc1 hc2, h1, h1, h2, h2]

theorem elimCol_at (i N : Nat) (A : Nat → Nat → ℚ) (r c : Nat)
    (hr1 : i + 1 ≤ r) (hr2 : r < N) (hc1 : i + 1 ≤ c) (hc2 : c < N) :
    elimCol i N A r c = A r c - A r i / A i i * A i c := by
  unfold elimCol
  refine elimCol_fold_at i N _ A r c ?_ (List.nodup_range' ..) ?_ hc1 hc2
  · intro j hj
    have := List.mem_range'_1.mp hj
    omega
  · exact List.mem_range'_1.mpr ⟨hr1, by omega⟩

theorem pivotApply_A_apply (N i : Nat) (s : LUPState) (r c : Nat) :
    (pivotApply N i s).A r c = s.A (Equiv.swap i (pivotSearch s.A i N).2 r) c := by
  simp only [pivotApply]
  by_cases hsw : (pivotSearch s.A i N).2 ≠ i
  · rw [if_pos hsw]
    exact swapRows_eq_swap s.A i (pivotSearch s.A i N).2 r c
  · push_neg at hsw
    rw [if_neg (not_not_intro hsw), hsw, Equiv.swap_self]
    rfl

/-! ### Degenerate shapes force failure -/

theorem swap_bounds {i p2 r N : Nat} (hir : i ≤ r) (hrN : r < N) (hip : i ≤ p2)
    (hpN : p2 < N) : i ≤ Equiv.swap i p2 r ∧ Equiv.swap i p2 r < N := by
  rw [Equiv.swap_apply_def]
  split_ifs <;> omega

theorem badAt_step {N : Nat} {Tol : ℚ} {i : Nat} {s : LUPState}
    (hTol : 0 < Tol) (hiN : i < N) (hbad : BadAt s.A i N) :
    decompStep N Tol i s = none ∨
      ∃ s1, decompStep N Tol i s = some s1 ∧ BadAt s1.A (i + 1) N := by
  by_cases hp : (pivotSearch s.A i N).1 < Tol
  · exact Or.inl ((decompStep_none_iff N Tol i s).mpr hp)
  · right
    refine ⟨{ A := elimCol i N (pivotApply N i s).A, P := (pivotApply N i s).P }, ?_, ?_⟩
    · unfold decompStep
      rw [if_neg hp]
    · show BadAt (elimCol i N (pivotApply N i s).A) (i + 1) N
      have hpos : 0 < (pivotSearch s.A i N).1 := lt_of_lt_of_le hTol (le_of_not_lt hp)
      obtain ⟨hattain, hip2, hp2N⟩ := pivot_attain s.A i N hiN
      have hA1app : ∀ r c, (pivotApply N i s).A r c
          = s.A (Equiv.swap i (pivotSearch s.A i N).2 r) c := pivotApply_A_apply N i s
      have hA1swap : ∀ r c,
          (pivotApply N i s).A (Equiv.swap i (pivotSearch s.A i N).2 r) c = s.A r c := by
        intro r c
        rw [hA1app, Equiv.swap_apply_self]
      have hA1ii : (pivotApply N i s).A i i ≠ 0 := by
        have h1 : (pivotApply N i s).A i i = s.A (pivotSearch s.A i N).2 i := by
          rw [hA1app, Equiv.swap_apply_left]
        rw [h1]
        intro h0
        rw [h0, abs_zero] at hattain
        exact (ne_of_gt hpos) hattain.symm
      have helim : ∀ r c, i + 1 ≤ r → r < N → i + 1 ≤ c → c < N →
          elimCol i N (pivotApply N i s).A r c
            = (pivotApply N i s).A r c
              - (pivotApply N i s).A r i / (pivotApply N i s).A i i
                * (pivotApply N i s).A i c :=
        fun r c h1 h2 h3 h4 => elimCol_at i N _ r c h1 h2 h3 h4
      rcases hbad with ⟨r, hir, hrN, hz⟩ | ⟨r, t0, hir, hit, hrN, htN, hrt, heq⟩
      · -- a zero row propagates: the pivot row cannot be the zero row
        have hrp2 : r ≠ (pivotSearch s.A i N).2 := by
          intro he
          have h0 : s.A r i = 0 := hz i le_rfl hiN
          rw [← he, h0, abs_zero] at hattain
          exact (ne_of_gt hpos) hattain.symm
        have hσ : i ≤ Equiv.swap i (pivotSearch s.A i N).2 r ∧
            Equiv.swap i (pivotSearch s.A i N).2 r < N := swap_bounds hir hrN hip2 hp2N
        have hσne : Equiv.swap i (pivotSearch s.A i N).2 r ≠ i := by
          rw [Equiv.swap_apply_def]
          split_ifs <;> omega
        refine Or.inl ⟨Equiv.swap i (pivotSearch s.A i N).2 r, by omega, hσ.2, ?_⟩
        intro c hc1 hc2
        rw [helim _ c (by omega) hσ.2 hc1 hc2]
        rw [hA1swap r c, hA1swap r i]
        rw [hz c (by omega) hc2, hz i le_rfl hiN]
        simp
      · -- two equal rows: either both survive below the pivot row, or one of
        -- them becomes the pivot row and the other is eliminated to zeros
        have hσr := swap_bounds hir hrN hip2 hp2N
        have hσt := swap_bounds hit htN hip2 hp2N
        have hne : Equiv.swap i (pivotSearch s.A i N).2 r ≠
            Equiv.swap i (pivotSearch s.A i N).2 t0 := by
          intro he
          exact hrt ((Equiv.swap i (pivotSearch s.A i N).2).injective he)
        by_cases hri : Equiv.swap i (pivotSearch s.A i N).2 r = i
        · have hσt_ne : Equiv.swap i (pivotSearch s.A i N).2 t0 ≠ i := by
            intro he
            exact hne (by rw [hri, he])
          have hAic : ∀ c', (pivotApply N i s).A i c' = s.A r c' := by
            intro c'
            have h := hA1swap r c'
            rw [hri] at h
            exact h
          have hAtc : ∀ c', i ≤ c' → c' < N →
              (pivotApply N i s).A (Equiv.swap i (pivotSearch s.A i N).2 t0) c' = s.A r c' := by
            intro c' h1 h2
            rw [hA1swap]
            exact (heq c' h1 h2).symm
          have hAii_eq : (pivotApply N i s).A i i = s.A r i := hAic i
          have hri_ne : s.A r i ≠ 0 := hAii_eq ▸ hA1ii
          refine Or.inl ⟨Equiv.swap i (pivotSearch s.A i N).2 t0, by omega, hσt.2, ?_⟩
          intro c hc1 hc2
          rw [helim _ c (by omega) hσt.2 hc1 hc2]
          rw [hAtc c (by omega) hc2, hAtc i le_rfl hiN, hAic c, hAii_eq,
            div_self hri_ne, one_mul, sub_self]
        · by_cases hti : Equiv.swap i (pivotSearch s.A i N).2 t0 = i
          · have hAic : ∀ c', (pivotApply N i s).A i c' = s.A t0 c' := by
              intro c'
              have h := hA1swap t0 c'
              rw [hti] at h
              exact h
            have hArc : ∀ c', i ≤ c' → c' < N →
                (pivotApply N i s).A (Equiv.swap i (pivotSearch s.A i N).2 r) c'
                  = s.A t0 c' := by
              intro c' h1 h2
              rw [hA1swap]
              exact heq c' h1 h2
            have hAii_eq : (pivotApply N i s).A i i = s.A t0 i := hAic i
            have hti_ne : s.A t0 i ≠ 0 := hAii_eq ▸ hA1ii
            refine Or.inl ⟨Equiv.swap i (pivotSearch s.A i N).2 r, by omega, hσr.2, ?_⟩
            intro c hc1 hc2
            rw [helim _ c (by omega) hσr.2 hc1 hc2]
            rw [hArc c (by omega) hc2, hArc i le_rfl hiN, hAic c, hAii_eq,
              div_self hti_ne, one_mul, sub_self]
          · refine Or.inr ⟨Equiv.swap i (pivotSearch s.A i N).2 r,
              Equiv.swap i (pivotSearch s.A i N).2 t0, by omega, by omega,
              hσr.2, hσt.2, hne, ?_⟩
            intro c hc1 hc2
            rw [helim _ c (by omega) hσr.2 hc1 hc2, helim _ c (by omega) hσt.2 hc1 hc2]
            rw [hA1swap r c, hA1swap r i, hA1swap t0 c, hA1swap t0 i]
            rw [heq c (by omega) hc2, heq i le_rfl hiN]

theorem badAt_fails (N : Nat) (Tol : ℚ) (hTol : 0 < Tol) :
    ∀ (m i : Nat) (s : LUPState), m + i = N → i < N → BadAt s.A i N →
      decompAux N Tol m i s = none := by
  intro m
  induction m with
  | zero => intro i s hm hi _; omega
  | succ m ih =>
    intro i s hm hi hbad
    rcases badAt_step hTol hi hbad with h | ⟨s1, h, hbad1⟩
    · rw [decompAux, h]
    · rw [decompAux, h]
      have hi1 : i + 1 < N := by
        rcases hbad1 with ⟨r, h1, h2, _⟩ | ⟨r, t0, h1, h2, h3, h4, _, _⟩ <;> omega
      exact ih (i + 1) s1 (by omega) hi1 hbad1

/-- C5: for every `N ≥ 1` square matrix containing a zero row or two identical
rows, `LUPDecompose` (any positive tolerance) reports failure, and `LUPSolve`
returns error code 1 rather than producing a solution. -/
theorem singular_shapes_fail :
    ∀ (A : Nat → Nat → ℚ) (N : Nat) (b x0 : Nat → ℚ) (P0 : Nat → Nat) (Tol : ℚ),
      0 < Tol → 1 ≤ N →
      ((∃ r, r < N ∧ ∀ c, c < N → A r c = 0) ∨
       (∃ r, r < N ∧ ∃ t, t < N ∧ r ≠ t ∧ ∀ c, c < N → A r c = A t c)) →
      LUPDecompose A N Tol P0 = none ∧ (LUPSolve A b N x0).1 = 1 := by
  intro A N b x0 P0 Tol hTol hN hshape
  have hbad : BadAt A 0 N := by
    rcases hshape with ⟨r, h1, h2⟩ | ⟨r, h1, t0, h2, h3, h4⟩
    · exact Or.inl ⟨r, by omega, h1, fun c _ hc => h2 c hc⟩
    · exact Or.inr ⟨r, t0, by omega, by omega, h1, h2, h3, fun c _ hc => h4 c hc⟩
  constructor
  · unfold LUPDecompose
    exact badAt_fails N Tol hTol N 0 _ (by omega) (by omega) hbad
  · rw [LUPSolve_code_one_iff]
    unfold LUPDecompose
    exact badAt_fails N tol (by decide) N 0 _ (by omega) (by omega) hbad

theorem singular_shapes_fail_witness :
    (0 : ℚ) < 1 ∧ 1 ≤ 2 ∧
      ((∃ r, r < 2 ∧ ∀ c, c < 2 → matOfList [[1, 2], [1, 2]] r c = 0) ∨
       (∃ r, r < 2 ∧ ∃ t, t < 2 ∧ r ≠ t ∧ ∀ c, c < 2 →
          matOfList [[1, 2], [1, 2]] r c = matOfList [[1, 2], [1, 2]] t c)) ∧
      LUPDecompose (matOfList [[1, 2], [1, 2]]) 2 1 (fun _ => 0) = none ∧
      (LUPSolve (matOfList [[1, 2], [1, 2]]) (vecOfList [1, 1]) 2 (vecOfList [0, 0])).1 = 1 :=
  ⟨by decide, by decide, by decide,
   singular_shapes_fail (matOfList [[1, 2], [1, 2]]) 2 (vecOfList [1, 1]) (vecOfList [0, 0])
     (fun _ => 0) 1 (by decide) (by decide) (by decide)⟩

/-! ### The power-sum accumulation of polyFit -/

theorem sampleFold_spec (nCoef : Nat) (xi yi : ℚ) :
    ∀ (m a : Nat) (XY xx : Nat → ℚ) (p : ℚ) (r : (Nat → ℚ) × (Nat → ℚ) × ℚ),
      r = (List.range' a m).foldl (sampleStep nCoef xi yi) (XY, xx, p) →
      r.2.2 = p * xi ^ m ∧
      (∀ t, r.1 t =
        if a ≤ t ∧ t < a + m ∧ t < nCoef then XY t + yi * (p * xi ^ (t - a)) else XY t) ∧
      (∀ t, r.2.1 t =
        if a ≤ t ∧ t < a + m then xx t + p * xi ^ (t - a) else xx t) := by
  intro m
  induction m with
  | zero =>
    intro a XY xx p r hr
    simp only [List.range', List.foldl_nil] at hr
    subst hr
    refine ⟨by simp, fun t => ?_, fun t => ?_⟩
    · rw [if_neg (by omega)]
    · rw [if_neg (by omega)]
  | succ m ih =>
    intro a XY xx p r hr
    rw [List.range'_succ, List.foldl_cons] at hr
    have hstep : sampleStep nCoef xi yi (XY, xx, p) a =
        ((if a < nCoef then updFn XY a (XY a + yi * p) else XY),
         updFn xx a (xx a + p), p * xi) := rfl
    rw [hstep] at hr
    obtain ⟨h1, h2, h3⟩ := ih (a + 1) _ _ _ r hr
    refine ⟨by rw [h1, pow_succ]; ring, fun t => ?_, fun t => ?_⟩
    · by_cases ht : t = a
      · subst ht
        rw [h2 t, if_neg (show ¬(t + 1 ≤ t ∧ t < t + 1 + m ∧ t < nCoef) by omega)]
        by_cases htc : t < nCoef
        · rw [if_pos htc, updFn_same, if_pos ⟨le_rfl, by omega, htc⟩]
          simp
        · rw [if_neg htc, if_neg (show ¬(t ≤ t ∧ t < t + (m + 1) ∧ t < nCoef) by omega)]
      · have hupd : (if a < nCoef then updFn XY a (XY a + yi * p) else XY) t = XY t := by
          split_ifs with h
          · exact updFn_ne _ _ _ ht
          · rfl
        have h2' := h2 t
        rw [hupd] at h2'
        rw [h2']
        by_cases hin : a + 1 ≤ t ∧ t < a + 1 + m ∧ t < nCoef
        · rw [if_pos hin, if_pos (show a ≤ t ∧ t < a + (m + 1) ∧ t < nCoef by omega)]
          have he : t - a = t - (a + 1) + 1 := by omega
          rw [he, pow_succ]
          ring
        · rw [if_neg hin, if_neg (show ¬(a ≤ t ∧ t < a + (m + 1) ∧ t < nCoef) by omega)]
    · by_cases ht : t = a
      · subst ht
        rw [h3 t, if_neg (show ¬(t + 1 ≤ t ∧ t < t + 1 + m) by omega), updFn_same,
          if_pos (show t ≤ t ∧ t < t + (m + 1) by omega)]
        simp
      · have h3' := h3 t
        rw [updFn_ne _ _ _ ht] at h3'
        rw [h3']
        by_cases hin : a + 1 ≤ t ∧ t < a + 1 + m
        · rw [if_pos hin, if_pos (show a ≤ t ∧ t < a + (m + 1) by omega)]
          have he : t - a = t - (a + 1) + 1 := by omega
          rw [he, pow_succ]
          ring
        · rw [if_neg hin, if_neg (show ¬(a ≤ t ∧ t < a + (m + 1)) by omega)]

theorem accumSample_XY (nCoef nPower : Nat) (xi yi : ℚ) (st : (Nat → ℚ) × (Nat → ℚ))
    (t : Nat) (h1 : t < nCoef) (h2 : t < nPower) :
    (accumSample nCoef nPower xi yi st).1 t = st.1 t + yi * xi ^ t := by
  obtain ⟨_, hXY, _⟩ := sampleFold_spec nCoef xi yi nPower 0 st.1 st.2 1
    ((List.range nPower).foldl (sampleStep nCoef xi yi) (st.1, st.2, 1))
    (by rw [List.range_eq_range'])
  have hval := hXY t
  rw [if_pos ⟨by omega, by omega, h1⟩] at hval
  have hacc : (accumSample nCoef nPower xi yi st).1 t
      = ((List.range nPower).foldl (sampleStep nCoef xi yi) (st.1, st.2, 1)).1 t := rfl
  rw [hacc, hval]
  simp

theorem accumSample_xx (nCoef nPower : Nat) (xi yi : ℚ) (st : (Nat → ℚ) × (Nat → ℚ))
    (t : Nat) (h2 : t < nPower) :
    (accumSample nCoef nPower xi yi st).2 t = st.2 t + xi ^ t := by
  obtain ⟨_, _, hxx⟩ := sampleFold_spec nCoef xi yi nPower 0 st.1 st.2 1
    ((List.range nPower).foldl (sampleStep nCoef xi yi) (st.1, st.2, 1))
    (by rw [List.range_eq_range'])
  have hval := hxx t
  rw [if_pos ⟨by omega, by omega⟩] at hval
  have hacc : (accumSample nCoef nPower xi yi st).2 t
      = ((List.range nPower).foldl (sampleStep nCoef xi yi) (st.1, st.2, 1)).2.1 t := rfl
  rw [hacc, hval]
  simp

theorem accumAll_spec (inX inY : List ℚ) (nCoef nPower : Nat) :
    (∀ t, t < nCoef → t < nPower → (accumAll inX inY nCoef nPower).1 t
        = ∑ k ∈ Finset.range inX.length, inY.getD k 0 * inX.getD k 0 ^ t) ∧
    (∀ t, t < nPower → (accumAll inX inY nCoef nPower).2 t
        = ∑ k ∈ Finset.range inX.length, inX.getD k 0 ^ t) := by
  have key : ∀ n,
      (∀ t, t < nCoef → t < nPower →
        ((List.range n).foldl
          (fun st i => accumSample nCoef nPower (inX.getD i 0) (inY.getD i 0) st)
          ((fun _ => 0), (fun _ => 0))).1 t
          = ∑ k ∈ Finset.range n, inY.getD k 0 * inX.getD k 0 ^ t) ∧
      (∀ t, t < nPower →
        ((List.range n).foldl
          (fun st i => accumSample nCoef nPower (inX.getD i 0) (inY.getD i 0) st)
          ((fun _ => 0), (fun _ => 0))).2 t
          = ∑ k ∈ Finset.range n, inX.getD k 0 ^ t) := by
    intro n
    induction n with
    | zero => exact ⟨fun t _ _ => by simp, fun t _ => by simp⟩
    | succ n ih =>
      rw [List.range_succ]
      constructor
      · intro t h1 h2
        rw [List.foldl_append, List.foldl_cons, List.foldl_nil,
          accumSample_XY nCoef nPower _ _ _ t h1 h2, ih.1 t h1 h2, Finset.sum_range_succ]
      · intro t h2
        rw [List.foldl_append, List.foldl_cons, List.foldl_nil,
          accumSample_xx nCoef nPower _ _ _ t h2, ih.2 t h2, Finset.sum_range_succ]
  exact key inX.length

/-! ### The normal-matrix assembly of polyFit -/

theorem asmStable (xxSum : Nat → ℚ) (i : Nat) :
    ∀ (L : List Nat) (B : Nat → Nat → ℚ) (r c : Nat), B r c = xxSum (r + c) →
      (L.foldl (fun B j =>
        updEntry (updEntry B i j (xxSum (i + j))) j i ((updEntry B i j (xxSum (i + j))) i j))
        B) r c = xxSum (r + c) := by
  intro L
  induction L with
  | nil => intro B r c h; exact h
  | cons a L ih =>
    intro B r c h
    rw [List.foldl_cons]
    apply ih
    rw [updEntry_same]
    by_cases h1 : r = a ∧ c = i
    · obtain ⟨hr, hc⟩ := h1
      subst hr
      subst hc
      rw [updEntry_same, Nat.add_comm]
    · have h1' : r ≠ a ∨ c ≠ i := by tauto
      rw [updEntry_ne _ _ _ _ h1']
      by_cases h2 : r = i ∧ c = a
      · obtain ⟨hr, hc⟩ := h2
        subst hr
        subst hc
        rw [updEntry_same]
      · have h2' : r ≠ i ∨ c ≠ a := by tauto
        rw [updEntry_ne _ _ _ _ h2']
        exact h

theorem asmCoverRow (xxSum : Nat → ℚ) (i : Nat) :
    ∀ (L : List Nat) (B : Nat → Nat → ℚ) (j : Nat), j ∈ L →
      (L.foldl (fun B j =>
        updEntry (updEntry B i j (xxSum (i + j))) j i ((updEntry B i j (xxSum (i + j))) i j))
        B) i j = xxSum (i + j) ∧
      (L.foldl (fun B j =>
        updEntry (updEntry B i j (xxSum (i + j))) j i ((updEntry B i j (xxSum (i + j))) i j))
        B) j i = xxSum (i + j) := by
  intro L
  induction L with
  | nil => intro B j h; cases h
  | cons a L ih =>
    intro B j hj
    rw [List.foldl_cons]
    rcases List.mem_cons.mp hj with he | hm
    · subst he
      constructor
      · apply asmStable
        rw [updEntry_same]
        by_cases hij : i = j
        · subst hij
          rw [updEntry_same]
        · rw [updEntry_ne _ _ _ _ (Or.inl hij), updEntry_same]
      · have hgoal : (updEntry (updEntry B i j (xxSum (i + j))) j i
            ((updEntry B i j (xxSum (i + j))) i j)) j i = xxSum (j + i) := by
          rw [updEntry_same, updEntry_same, Nat.add_comm]
        have := asmStable xxSum i L _ j i hgoal
        rw [this, Nat.add_comm]
    · exact ih _ j hm

theorem asmOuterStable (xxSum : Nat → ℚ) (nCoef : Nat) :
    ∀ (L : List Nat) (B : Nat → Nat → ℚ) (r c : Nat), B r c = xxSum (r + c) →
      (L.foldl (fun XX i => (List.range nCoef).foldl
        (fun B j =>
          updEntry (updEntry B i j (xxSum (i + j))) j i ((updEntry B i j (xxSum (i + j))) i j))
        XX) B) r c = xxSum (r + c) := by
  intro L
  induction L with
  | nil => intro B r c h; exact h
  | cons a L ih =>
    intro B r c h
    rw [List.foldl_cons]
    exact ih _ r c (asmStable xxSum a _ B r c h)

theorem asmCover (xxSum : Nat → ℚ) (nCoef : Nat) :
    ∀ (L : List Nat) (B : Nat → Nat → ℚ) (a : Nat), a ∈ L → ∀ b, b < nCoef →
      (L.foldl (fun XX i => (List.range nCoef).foldl
        (fun B j =>
          updEntry (updEntry B i j (xxSum (i + j))) j i ((updEntry B i j (xxSum (i + j))) i j))
        XX) B) a b = xxSum (a + b) ∧
      (L.foldl (fun XX i => (List.range nCoef).foldl
        (fun B j =>
          updEntry (updEntry B i j (xxSum (i + j))) j i ((updEntry B i j (xxSum (i + j))) i j))
        XX) B) b a = xxSum (a + b) := by
  intro L
  induction L with
  | nil => intro B a h; cases h
  | cons a0 L ih =>
    intro B a ha b hb
    rw [List.foldl_cons]
    rcases List.mem_cons.mp ha with he | hm
    · subst he
      obtain ⟨hc1, hc2⟩ := asmCoverRow xxSum a (List.range nCoef) B b (List.mem_range.mpr hb)
      rw [Nat.add_comm a b] at hc2
      refine ⟨asmOuterStable xxSum nCoef L _ a b hc1, ?_⟩
      rw [asmOuterStable xxSum nCoef L _ b a hc2, Nat.add_comm b a]
    · exact ih _ a hm b hb

theorem assembleXX_spec (xxSum : Nat → ℚ) (nCoef : Nat) (a b : Nat)
    (ha : a < nCoef) (hb : b < nCoef) :
    assembleXX xxSum nCoef a b = xxSum (a + b) := by
  unfold assembleXX
  exact (asmCover xxSum nCoef (List.range nCoef) _ a (List.mem_range.mpr ha) b hb).1

theorem assembleXX_zero (n : Nat) (a b : Nat) : assembleXX (fun _ => 0) n a b = 0 := by
  unfold assembleXX
  exact asmOuterStable (fun _ => 0) n (List.range n) _ a b rfl

/-- C2: for equal-length samples and degree `d`, `polyFit` accumulates the
power sums up to `2*d`, assembles the symmetric `(d+1)x(d+1)` normal matrix
`XX[i][j] = Σ x_k^(i+j)` and the vector `XY[j] = Σ y_k * x_k^j`, and invokes
the solver on `(XX, XY)` with dimension `d+1`. -/
theorem polyFit_normal_equations :
    ∀ (xs ys : List ℚ) (d : Nat), xs.length = ys.length →
      ∀ i j, i ≤ d → j ≤ d →
        assembleXX (accumAll xs ys (d + 1) (d + 1 + d)).2 (d + 1) i j
            = ∑ k ∈ Finset.range xs.length, xs.getD k 0 ^ (i + j) ∧
        (accumAll xs ys (d + 1) (d + 1 + d)).1 j
            = ∑ k ∈ Finset.range xs.length, ys.getD k 0 * xs.getD k 0 ^ j ∧
        (∀ q, q ≤ 2 * d → (accumAll xs ys (d + 1) (d + 1 + d)).2 q
            = ∑ k ∈ Finset.range xs.length, xs.getD k 0 ^ q) ∧
        polyFit xs ys d
            = ((LUPSolve (assembleXX (accumAll xs ys (d + 1) (d + 1 + d)).2 (d + 1))
                  (accumAll xs ys (d + 1) (d + 1 + d)).1 (d + 1) (fun _ => 0)).1,
               (List.range (d + 1)).map
                 (LUPSolve (assembleXX (accumAll xs ys (d + 1) (d + 1 + d)).2 (d + 1))
                    (accumAll xs ys (d + 1) (d + 1 + d)).1 (d + 1) (fun _ => 0)).2) := by
  intro xs ys d hlen i j hi hj
  have hxx := (accumAll_spec xs ys (d + 1) (d + 1 + d)).2
  refine ⟨?_, ?_, ?_, rfl⟩
  · rw [assembleXX_spec _ _ i j (by omega) (by omega)]
    exact hxx (i + j) (by omega)
  · exact (accumAll_spec xs ys (d + 1) (d + 1 + d)).1 j (by omega) (by omega)
  · intro q hq
    exact hxx q (by omega)

theorem polyFit_normal_equations_witness :
    assembleXX (accumAll [2, 3] [5, 7] (1 + 1) (1 + 1 + 1)).2 (1 + 1) 1 1
      = ∑ k ∈ Finset.range ([2, 3] : List ℚ).length, ([2, 3] : List ℚ).getD k 0 ^ (1 + 1) :=
  (polyFit_normal_equations [2, 3] [5, 7] 1 rfl 1 1 (by decide) (by decide)).1

/-- C10: on empty samples, `polyFit` performs no accumulation, assembles an
all-zero `(d+1)x(d+1)` normal matrix, and returns error code 1 with the
coefficient vector resized to `d+1` zeros. -/
theorem polyFit_empty_input :
    ∀ d : Nat,
      polyFit [] [] d = (1, List.replicate (d + 1) 0) ∧
      accumAll [] [] (d + 1) (d + 1 + d) = ((fun _ => 0), (fun _ => 0)) ∧
      (∀ a b, assembleXX (accumAll [] [] (d + 1) (d + 1 + d)).2 (d + 1) a b = 0) := by
  intro d
  have hacc : accumAll [] [] (d + 1) (d + 1 + d) = ((fun _ => (0 : ℚ)), (fun _ => (0 : ℚ))) :=
    rfl
  have hXX : ∀ a b, assembleXX (accumAll [] [] (d + 1) (d + 1 + d)).2 (d + 1) a b = 0 := by
    intro a b
    rw [hacc]
    exact assembleXX_zero (d + 1) a b
  refine ⟨?_, hacc, hXX⟩
  have hpiv : pivotSearch (assembleXX (accumAll [] [] (d + 1) (d + 1 + d)).2 (d + 1)) 0 (d + 1)
      = (0, 0) :=
    pivot_zero_col _ 0 (d + 1) (fun k _ _ => hXX k 0)
  have hstep : decompStep (d + 1) tol 0
      { A := assembleXX (accumAll [] [] (d + 1) (d + 1 + d)).2 (d + 1),
        P := initP (d + 1) (fun _ => 0) } = none := by
    rw [decompStep_none_iff]
    show (pivotSearch (assembleXX (accumAll [] [] (d + 1) (d + 1 + d)).2 (d + 1)) 0 (d + 1)).1
      < tol
    rw [hpiv]
    show (0 : ℚ) < tol
    decide
  have hdec : LUPDecompose (assembleXX (accumAll [] [] (d + 1) (d + 1 + d)).2 (d + 1)) (d + 1)
      tol (fun _ => 0) = none := by
    unfold LUPDecompose
    rw [decompAux, hstep]
  have hsolve : LUPSolve (assembleXX (accumAll [] [] (d + 1) (d + 1 + d)).2 (d + 1))
      (accumAll [] [] (d + 1) (d + 1 + d)).1 (d + 1) (fun _ => 0) = (1, fun _ => 0) := by
    simp only [LUPSolve, hdec]
  show ((LUPSolve (assembleXX (accumAll [] [] (d + 1) (d + 1 + d)).2 (d + 1))
      (accumAll [] [] (d + 1) (d + 1 + d)).1 (d + 1) (fun _ => 0)).1,
    (List.range (d + 1)).map
      (LUPSolve (assembleXX (accumAll [] [] (d + 1) (d + 1 + d)).2 (d + 1))
        (accumAll [] [] (d + 1) (d + 1 + d)).1 (d + 1) (fun _ => 0)).2)
    = (1, List.replicate (d + 1) 0)
  rw [hsolve]
  simp [List.map_const', List.length_range]

theorem polyFit_duplicate_x_fails_witness :
    (0 : Nat) < 2 ∧
      assembleXX (accumAll [1, 1, 1] [1, 2, 3] 2 3).2 2 0 0
        = assembleXX (accumAll [1, 1, 1] [1, 2, 3] 2 3).2 2 1 0 :=
  ⟨by decide, polyFit_duplicate_x_fails.2 0 (by decide)⟩
